import Mathlib

/-!
Shallow embedding of the preprocessing pipeline of
`k8s_ml_predictive_autoscaling` (files `preprocessor/pipeline.py`,
`preprocessor/anomaly_detection.py`, `preprocessor/feature_engineering.py`,
`preprocessor/config.py`).

A pandas `DataFrame` is modelled column-major: an integer (epoch-second)
index plus an ordered list of named columns, each a list of optional
rationals (`none` models `NaN`).  Machine floats are modelled by `ℚ`;
every counterexample below uses values that are exactly representable in
binary floating point, so the rational model agrees with the float
computation at those inputs.
-/

namespace K8sPre

/-- Cell access in a column: `none` both for a stored NaN and out of range. -/
def cellAt (xs : List (Option ℚ)) (i : ℕ) : Option ℚ :=
  (xs.get? i).join

/-- Keep entries of `xs` whose mask bit is `true` (pandas `frame.loc[mask]`). -/
def maskFilter (mask : List Bool) (xs : List α) : List α :=
  (mask.zip xs).filterMap (fun p => if p.1 then some p.2 else none)

/-- Mean of a list of rationals (`0` for the empty list, never used there). -/
def listMean (xs : List ℚ) : ℚ := xs.sum / xs.length

/-- Population variance (`ddof = 0`) of a list of rationals. -/
def listPopVar (xs : List ℚ) : ℚ :=
  (xs.map (fun x => (x - listMean xs) ^ 2)).sum / xs.length

/-- DataFrame model: integer time index plus ordered named columns. -/
structure Frame where
  index : List ℤ
  cols : List (String × List (Option ℚ))
  deriving Repr, DecidableEq

/-- Number of rows (pandas `len(frame)`). -/
def Frame.numRows (f : Frame) : ℕ := f.index.length

/-- Well-formedness: every column has exactly one cell per index entry. -/
def Frame.WF (f : Frame) : Prop :=
  ∀ c ∈ f.cols, c.2.length = f.index.length

instance (f : Frame) : Decidable f.WF := by
  unfold Frame.WF; infer_instance

/-- Column names in order (pandas `frame.columns`). -/
def colNames (f : Frame) : List String := f.cols.map (·.1)

/-- First column with the given name, if any (pandas `frame[name]` lookup). -/
def getCol (f : Frame) (name : String) : Option (List (Option ℚ)) :=
  (f.cols.find? (fun c => c.1 = name)).map (·.2)

/-- Column contents with `[]` default for a missing name. -/
def getColD (f : Frame) (name : String) : List (Option ℚ) :=
  (getCol f name).getD []

/-- Assignment on the column list: replace the first column with this name,
or append a new one at the end (pandas `frame[name] = values`). -/
def setColList : List (String × List (Option ℚ)) → String → List (Option ℚ) →
    List (String × List (Option ℚ))
  | [], n, v => [(n, v)]
  | c :: cs, n, v => if c.1 = n then (n, v) :: cs else c :: setColList cs n v

/-- Column assignment on a frame. -/
def setCol (f : Frame) (name : String) (vals : List (Option ℚ)) : Frame :=
  ⟨f.index, setColList f.cols name vals⟩

/-- Sequential column assignments. -/
def setCols (f : Frame) (ps : List (String × List (Option ℚ))) : Frame :=
  ps.foldl (fun a p => setCol a p.1 p.2) f

/-- Row filtering by a positional boolean mask. -/
def filterMaskF (f : Frame) (mask : List Bool) : Frame :=
  ⟨maskFilter mask f.index, f.cols.map (fun c => (c.1, maskFilter mask c.2))⟩

/-- Python slice `l[a:b]` for nonnegative bounds. -/
def pySlice (a b : ℕ) (l : List α) : List α := (l.take b).drop a

/-- Row slice `frame.iloc[a:b]`. -/
def sliceRows (f : Frame) (a b : ℕ) : Frame :=
  ⟨pySlice a b f.index, f.cols.map (fun c => (c.1, pySlice a b c.2))⟩

/-- Row slice `frame.iloc[a:]`. -/
def sliceRowsFrom (f : Frame) (a : ℕ) : Frame :=
  ⟨f.index.drop a, f.cols.map (fun c => (c.1, c.2.drop a))⟩

/-- Row-wise concatenation of two frames with identical column structure. -/
def appendF (f g : Frame) : Frame :=
  ⟨f.index ++ g.index,
   List.zipWith (fun c d => (c.1, c.2 ++ d.2)) f.cols g.cols⟩

/-!  Configuration model (`preprocessor/config.py`).  Floats become `ℚ`;
the anomaly threshold is `WithTop ℚ` so that `⊤` models `float("inf")`. -/

/-- FeatureConfig of `config.py` (lags are Python ints). -/
structure FeatureConfig where
  enable_time_features : Bool
  lags : List ℤ
  rolling_windows : List ℕ
  deriving Repr, DecidableEq

/-- AnomalyConfig of `config.py`. -/
structure AnomalyConfig where
  enabled : Bool
  zscore_threshold : WithTop ℚ
  deriving Repr, DecidableEq

/-- SlidingWindowConfig of `config.py`: `forecast_steps` is a plain
`list[int]` — pydantic constrains only `sequence_length` and `stride`. -/
structure SlidingWindowConfig where
  sequence_length : ℕ
  forecast_steps : List ℤ
  stride : ℕ
  target_metric : String
  deriving Repr, DecidableEq

/-- DatasetSplitConfig of `config.py`. -/
structure DatasetSplitConfig where
  train : ℚ
  validation : ℚ
  test : ℚ
  deriving Repr, DecidableEq

/-- Field validator of `DatasetSplitConfig`: each ratio strictly in (0,1). -/
def DatasetSplitConfig.fieldsValid (s : DatasetSplitConfig) : Bool :=
  decide (0 < s.train ∧ s.train < 1 ∧ 0 < s.validation ∧ s.validation < 1 ∧
    0 < s.test ∧ s.test < 1)

/-- The `total` property of `DatasetSplitConfig`. -/
def DatasetSplitConfig.total (s : DatasetSplitConfig) : ℚ :=
  s.train + s.validation + s.test

/-- Pydantic validation of `SlidingWindowConfig`: only `sequence_length`
and `stride` are `PositiveInt`; `forecast_steps` is unconstrained. -/
def SlidingWindowConfig.valid (sw : SlidingWindowConfig) : Bool :=
  decide (0 < sw.sequence_length ∧ 0 < sw.stride)

/-- PreprocessorConfig of `config.py`, restricted to the fields the
pipeline logic reads (paths and CSV column names are carried by the
input model instead). -/
structure PreprocessorConfig where
  metrics : List String
  scaler_features : List String
  resample_rule : ℕ
  features : FeatureConfig
  anomaly : AnomalyConfig
  sliding_window : SlidingWindowConfig
  splits : DatasetSplitConfig
  deriving Repr, DecidableEq

/-!  Anomaly filter (`anomaly_detection.py`, `filter_zscore`). -/

/-- Decides `|z| ≤ threshold` for a z-score `z` given as `z²` (`none` is a
NaN z-score, which `fillna(0.0)` turns into `0`).  For a finite
threshold `t` and variance-scaled square `z2 = ((x-m)/σ)²` we use
`|z| ≤ t ↔ 0 ≤ t ∧ z² ≤ t²`, which is exact and keeps the model in `ℚ`
(σ itself is an irrational square root). -/
def zLeThreshold (z2 : Option ℚ) (t : WithTop ℚ) : Bool :=
  match t with
  | ⊤ => true
  | (t : ℚ) =>
    match z2 with
    | none => decide ((0 : ℚ) ≤ t)
    | some z2 => decide (0 ≤ t ∧ z2 ≤ t ^ 2)

/-- Columnwise squared z-scores, mirroring
`(subset - subset.mean()) / subset.std(ddof=0).replace(0, 1.0)`:
mean and population variance skip NaN; zero standard deviation is
replaced by `1.0` (so the z-score is then just `x - mean`); a column with
no valid value yields NaN everywhere. -/
def z2Column (xs : List (Option ℚ)) : List (Option ℚ) :=
  let valid := xs.filterMap id
  if valid.isEmpty then xs.map (fun _ => none)
  else
    let m := listMean valid
    let v := listPopVar valid
    xs.map (Option.map (fun x => if v = 0 then (x - m) ^ 2 else (x - m) ^ 2 / v))

/-- Row mask of `filter_zscore`:
`(standardized.abs() <= threshold).all(axis=1)` built columnwise. -/
def zscoreMask (f : Frame) (present : List String) (threshold : WithTop ℚ) :
    List Bool :=
  present.foldl
    (fun acc c =>
      List.zipWith and acc
        ((z2Column (getColD f c)).map (fun z => zLeThreshold z threshold)))
    (List.replicate f.numRows true)

/-- Model of `filter_zscore(frame, columns, threshold)`. -/
def filter_zscore (f : Frame) (columns : List String) (threshold : WithTop ℚ) :
    Frame :=
  if columns.isEmpty then f
  else
    let present := columns.filter (fun c => c ∈ colNames f)
    if present.isEmpty then f
    else filterMaskF f (zscoreMask f present threshold)

/-!  Feature engineering (`feature_engineering.py`). -/

/-- Series `shift(k)`: row `n` receives the value of row `n - k` (also for
negative `k`), `none` when that row does not exist. -/
def shiftCells (k : ℤ) (xs : List (Option ℚ)) : List (Option ℚ) :=
  (List.range xs.length).map (fun (n : ℕ) =>
    if 0 ≤ (n : ℤ) - k ∧ (n : ℤ) - k < (xs.length : ℤ)
    then cellAt xs ((n : ℤ) - k).toNat else none)

/-- Name of a lag column, `f"{column}_lag_{lag}"`. -/
def lagName (c : String) (k : ℤ) : String := c ++ "_lag_" ++ toString k

/-- Name of a rolling-mean column, `f"{column}_rolling_mean_{window}"`. -/
def rollName (c : String) (w : ℕ) : String :=
  c ++ "_rolling_mean_" ++ toString w

/-- Trailing rolling mean, pandas `rolling(window).mean()` with the default
`min_periods = window`: `none` until a full window of valid values exists. -/
def rollingMean (w : ℕ) (xs : List (Option ℚ)) : List (Option ℚ) :=
  (List.range xs.length).map (fun n =>
    if n + 1 < w then none
    else
      let window := (xs.drop (n + 1 - w)).take w
      if window.all (·.isSome) then some ((window.filterMap id).sum / (w : ℚ))
      else none)

/-- Model of `add_lag_features(frame, columns, lags)`: per requested column
present in the (evolving) frame, one shifted copy per lag. -/
def add_lag_features (f : Frame) (columns : List String) (lags : List ℤ) :
    Frame :=
  columns.foldl
    (fun acc c =>
      if c ∈ colNames acc then
        lags.foldl
          (fun a k => setCol a (lagName c k) (shiftCells k (getColD a c))) acc
      else acc)
    f

/-- Model of `add_rolling_features(frame, columns, windows)`. -/
def add_rolling_features (f : Frame) (columns : List String)
    (windows : List ℕ) : Frame :=
  columns.foldl
    (fun acc c =>
      if c ∈ colNames acc then
        windows.foldl
          (fun a w => setCol a (rollName c w) (rollingMean w (getColD a c))) acc
      else acc)
    f

/-- Model of `add_time_features(frame)` for an epoch-second index
(hour of day, day of week with Monday `0`, weekend flag, minute of day). -/
def add_time_features (f : Frame) : Frame :=
  let hour := f.index.map (fun t => some ((((t.fdiv 3600) % 24 : ℤ) : ℚ)))
  let dow := f.index.map (fun t => some ((((t.fdiv 86400 + 3) % 7 : ℤ) : ℚ)))
  let wkd := f.index.map (fun t =>
    some (if 5 ≤ (t.fdiv 86400 + 3) % 7 then (1 : ℚ) else 0))
  let mod := f.index.map (fun t =>
    some (((((t.fdiv 3600) % 24) * 60 + (t.fdiv 60) % 60 : ℤ) : ℚ)))
  setCol (setCol (setCol (setCol f "hour" hour) "day_of_week" dow)
    "is_weekend" wkd) "minute_of_day" mod

/-!  Pipeline stages (`pipeline.py`, `PreprocessingPipeline`). -/

/-- Errors the pipeline can raise.  `scalerValueError` is the
`ValueError` sklearn's `check_array` raises inside
`StandardScaler.fit_transform` on a selection with zero features or
zero samples; `invalidSplit` is the `ValueError` `_split` raises on a
bad ratio sum. -/
inductive PErr where
  | noInputFiles
  | invalidSplit
  | keyError
  | indexError
  | scalerValueError
  deriving Repr, DecidableEq

/-- Name of a target column, `f"target_{target_metric}_t+{horizon}"`. -/
def targetName (m : String) (h : ℤ) : String :=
  "target_" ++ m ++ "_t+" ++ toString h

/-- Model of `_build_targets`: one column per configured horizon, each the
target metric shifted by `-horizon`; subscripting a missing target metric
raises `KeyError` in pandas (only reached when the loop body runs). -/
def buildTargets (sw : SlidingWindowConfig) (f : Frame) : Except PErr Frame :=
  if sw.forecast_steps.isEmpty then .ok f
  else if sw.target_metric ∈ colNames f then
    .ok (sw.forecast_steps.foldl
      (fun acc h =>
        setCol acc (targetName sw.target_metric h)
          (shiftCells (-h) (getColD acc sw.target_metric)))
      f)
  else .error .keyError

/-- Model of `dataset.dropna()`: drop every row holding any `none` cell. -/
def dropna (f : Frame) : Frame :=
  filterMaskF f ((List.range f.numRows).map (fun i =>
    f.cols.all (fun c => (cellAt c.2 i).isSome)))

/-- Model of `_determine_scaler_features`: the configured
`scaler_features` intersected with the frame's columns, falling back to
the configured metric names when `scaler_features` is empty. -/
def determineScalerFeatures (cfg : PreprocessorConfig) (f : Frame) :
    List String :=
  if cfg.scaler_features.isEmpty then
    cfg.metrics.filter (fun c => c ∈ colNames f)
  else
    cfg.scaler_features.filter (fun c => c ∈ colNames f)

/-- Per-column standardisation of sklearn's `StandardScaler` (encoding
note: the true transform divides by `√variance`, an irrational; this
model divides by the variance itself — still `1` when the variance is
zero.  No verified property reads post-scaler values, only row counts and
column names, which the scale factor cannot change). -/
def standardizeCol (xs : List (Option ℚ)) : List (Option ℚ) :=
  let valid := xs.filterMap id
  if valid.isEmpty then xs
  else
    let m := listMean valid
    let v := listPopVar valid
    xs.map (Option.map (fun x => if v = 0 then x - m else (x - m) / v))

/-- Model of `dataset[features] = scaler.fit_transform(dataset[features])`.
sklearn's `fit_transform` validates its input with `check_array`
(`ensure_min_features=1`, `ensure_min_samples=1`) and raises
`ValueError` when the selection has zero feature columns (e.g. a wholly
misspelled `scaler_features` list) or zero rows (e.g. a dataset emptied
by `dropna`); otherwise each selected column is standardised in place. -/
def fitTransform (features : List String) (f : Frame) : Except PErr Frame :=
  if features.isEmpty ∨ f.numRows = 0 then .error .scalerValueError
  else .ok (features.foldl
    (fun acc c => setCol acc c (standardizeCol (getColD acc c))) f)

/-- Python `int()` on a rational: truncation toward zero. -/
def pyInt (q : ℚ) : ℤ := if 0 ≤ q then ⌊q⌋ else ⌈q⌉

/-- Split-ratio tolerance, `1e-6`. -/
def splitTol : ℚ := 1 / 1000000

/-- Model of `_split`: validate the ratio sum, then slice by row position
with `train_end = int(total*train)` and
`val_end = train_end + int(total*validation)`. -/
def splitFrame (s : DatasetSplitConfig) (f : Frame) :
    Except PErr (Frame × Frame × Frame) :=
  if splitTol < |s.total - 1| then .error .invalidSplit
  else
    let total : ℚ := (f.numRows : ℚ)
    let trainEnd : ℕ := (pyInt (total * s.train)).toNat
    let valEnd : ℕ := trainEnd + (pyInt (total * s.validation)).toNat
    .ok (sliceRows f 0 trainEnd, sliceRows f trainEnd valEnd,
      sliceRowsFrom f valEnd)

/-- Python `range(0, stop, step)` for a possibly negative `stop` and a
positive `step`, as the list of produced naturals. -/
def rangeStep (stop : ℤ) (step : ℕ) : List ℕ :=
  (List.range (if stop ≤ 0 then 0 else (stop - 1).toNat / step + 1)).map
    (· * step)

/-- Model of `build_sequences(frame, feature_columns, target_column,
sequence_length, stride)`: missing columns raise `KeyError`; windows start
at `range(0, len(frame) - sequence_length + 1, stride)`; each window is
paired with the target value and the timestamp of its last row. -/
def build_sequences (f : Frame) (feature_columns : List String)
    (target_column : String) (sequence_length stride : ℕ) :
    Except PErr (List (List (List (Option ℚ))) × List (Option ℚ) × List ℤ) :=
  if target_column ∉ colNames f then .error .keyError
  else if ¬ feature_columns.all (fun c => c ∈ colNames f) then .error .keyError
  else
    let values := (List.range f.numRows).map (fun i =>
      feature_columns.map (fun c => cellAt (getColD f c) i))
    let targets := getColD f target_column
    let starts := rangeStep ((f.numRows : ℤ) - sequence_length + 1) stride
    .ok (starts.map (fun st => (values.drop st).take sequence_length),
      starts.map (fun st => cellAt targets (st + sequence_length - 1)),
      starts.map (fun st => f.index.getD (st + sequence_length - 1) 0))

/-!  Raw input, pivoting and resampling (`_load_raw`, `_resample`). -/

/-- One raw CSV row after `read_csv`: timestamp (epoch seconds), metric
name, value. -/
structure RawRecord where
  ts : ℤ
  metric : String
  value : ℚ
  deriving Repr, DecidableEq

/-- One raw input file matched by the glob. -/
structure RawFile where
  path : String
  rows : List RawRecord
  deriving Repr, DecidableEq

/-- Insertion into a sorted list. -/
def insertSorted [LinearOrder α] (x : α) : List α → List α
  | [] => [x]
  | y :: ys => if x ≤ y then x :: y :: ys else y :: insertSorted x ys

/-- Insertion sort. -/
def sortList [LinearOrder α] (l : List α) : List α := l.foldr insertSorted []

/-- Remove adjacent duplicates (after sorting: all duplicates). -/
def dedupSorted [DecidableEq α] : List α → List α
  | [] => []
  | [x] => [x]
  | x :: y :: r => if x = y then dedupSorted (y :: r) else x :: dedupSorted (y :: r)

/-- Model of the `pivot_table` step of `_load_raw`: index = sorted distinct
timestamps, one column per distinct metric (pandas sorts pivot columns),
cell = arithmetic mean of the matching values, NaN when there are none.
The preceding `sort_values` only pre-orders rows; the pivot sorts the
index itself, which this model does directly. -/
def pivotFrame (records : List RawRecord) : Frame :=
  let idx := dedupSorted (sortList (records.map (·.ts)))
  let ms := dedupSorted (sortList (records.map (·.metric)))
  ⟨idx, ms.map (fun m => (m, idx.map (fun t =>
    let vs := (records.filter (fun row =>
      decide (row.ts = t) && decide (row.metric = m))).map (·.value)
    if vs.isEmpty then none else some (listMean vs))))⟩

/-- Model of `_load_raw`: `NoInputFilesError` (a `FileNotFoundError` in the
code) when the glob matched nothing, otherwise the per-file metric filter
followed by concatenation and pivoting. -/
def loadRaw (cfg : PreprocessorConfig) (files : List RawFile) :
    Except PErr Frame :=
  if files.isEmpty then .error .noInputFiles
  else .ok (pivotFrame ((files.map (fun fl =>
    fl.rows.filter (fun row => decide (row.metric ∈ cfg.metrics)))).flatten))

/-- Forward fill with a carried last valid value. -/
def ffillAux : Option ℚ → List (Option ℚ) → List (Option ℚ)
  | _, [] => []
  | last, x :: xs =>
    match x with
    | some v => some v :: ffillAux (some v) xs
    | none => last :: ffillAux last xs

/-- Series `ffill()`. -/
def ffillCol (xs : List (Option ℚ)) : List (Option ℚ) := ffillAux none xs

/-- Series `bfill()`. -/
def bfillCol (xs : List (Option ℚ)) : List (Option ℚ) :=
  (ffillAux none xs.reverse).reverse

/-- Last valid cell at position `≤ n`. -/
def findPrevValid (xs : List (Option ℚ)) (n : ℕ) : Option (ℕ × ℚ) :=
  ((List.range (n + 1)).reverse.filterMap
    (fun j => (cellAt xs j).map (fun v => (j, v)))).head?

/-- First valid cell at position `≥ n`. -/
def findNextValid (xs : List (Option ℚ)) (n : ℕ) : Option (ℕ × ℚ) :=
  (((List.range xs.length).drop n).filterMap
    (fun j => (cellAt xs j).map (fun v => (j, v)))).head?

/-- Series `interpolate(method="time")`: interior gaps become the
time-weighted linear blend of the surrounding valid values; trailing gaps
copy the last valid value (pandas interpolates forward); leading gaps
stay NaN (closed right after by `bfill`). -/
def interpolateTime (ts : List ℤ) (xs : List (Option ℚ)) :
    List (Option ℚ) :=
  (List.range xs.length).map (fun n =>
    match cellAt xs n with
    | some v => some v
    | none =>
      match findPrevValid xs n, findNextValid xs n with
      | some (j, vj), some (k, vk) =>
        some (vj + (vk - vj) *
          (((ts.getD n 0 - ts.getD j 0 : ℤ) : ℚ) /
            ((ts.getD k 0 - ts.getD j 0 : ℤ) : ℚ)))
      | some (_, vj), none => some vj
      | _, _ => none)

/-- Model of `_resample`: mean-aggregate into buckets of `rule` seconds
over the full bucket range, then `interpolate(method).ffill().bfill()`. -/
def resampleFrame (rule : ℕ) (f : Frame) : Frame :=
  match f.index with
  | [] => f
  | t0 :: ts =>
    if rule = 0 then f
    else
      let lo := ts.foldl min t0
      let hi := ts.foldl max t0
      let b0 := lo.fdiv rule
      let n := (hi.fdiv rule - b0).toNat + 1
      let idx := (List.range n).map (fun i => (b0 + i) * (rule : ℤ))
      ⟨idx, f.cols.map (fun c => (c.1,
        let bucketed := idx.map (fun b =>
          let vs := (f.index.zip c.2).filterMap (fun p =>
            if (p.1.fdiv rule) * (rule : ℤ) = b then p.2 else none)
          if vs.isEmpty then none else some (listMean vs))
        bfillCol (ffillCol (interpolateTime idx bucketed))))⟩

/-!  Orchestration (`PreprocessingPipeline.run`) with an explicit I/O
event trace. -/

/-- An I/O event of one pipeline run. -/
inductive Event where
  | read (path : String)
  | write (name : String)
  deriving Repr, DecidableEq

instance {ε α : Type} [DecidableEq ε] [DecidableEq α] :
    DecidableEq (Except ε α) := fun a b =>
  match a, b with
  | .ok x, .ok y =>
    if h : x = y then .isTrue (by rw [h]) else .isFalse (by simp [h])
  | .error x, .error y =>
    if h : x = y then .isTrue (by rw [h]) else .isFalse (by simp [h])
  | .ok _, .error _ => .isFalse (by simp)
  | .error _, .ok _ => .isFalse (by simp)

/-- Result of a run: the I/O events in order, then success or the raised
error. -/
structure RunOut where
  events : List Event
  result : Except PErr Unit
  deriving Repr, DecidableEq

/-- Anomaly stage of `run`: filter only when enabled. -/
def anomalyStage (cfg : PreprocessorConfig) (f : Frame) : Frame :=
  if cfg.anomaly.enabled then
    filter_zscore f cfg.metrics cfg.anomaly.zscore_threshold
  else f

/-- Model of `_engineer_features`. -/
def engineerFeatures (cfg : PreprocessorConfig) (f : Frame) : Frame :=
  let f1 := if cfg.features.enable_time_features then add_time_features f else f
  add_rolling_features (add_lag_features f1 cfg.metrics cfg.features.lags)
    cfg.metrics cfg.features.rolling_windows

/-- Loop of `_persist_sequences`: per split, build the sequences and then
write the archive; a build error aborts the loop after the writes already
made. -/
def persistSeqLoop (featureCols : List String) (mt : String) (L S : ℕ) :
    List (String × Frame) → List Event × Option PErr
  | [] => ([], none)
  | (name, fr) :: rest =>
    match build_sequences fr featureCols mt L S with
    | .error e => ([], some e)
    | .ok _ =>
      let p := persistSeqLoop featureCols mt L S rest
      (Event.write ("sequences_" ++ name ++ ".npz") :: p.1, p.2)

/-- Model of `PreprocessingPipeline.run`: load, resample, filter,
engineer, build targets, dropna, scale, split, persist splits, persist
sequences (where `forecast_steps[0]` raises `IndexError` on an empty
list), persist the scaler. -/
def runPipeline (cfg : PreprocessorConfig) (inputs : List RawFile) : RunOut :=
  match loadRaw cfg inputs with
  | .error e => ⟨[], .error e⟩
  | .ok frame0 =>
    let readEvents := inputs.map (fun fl => Event.read fl.path)
    let frame1 := resampleFrame cfg.resample_rule frame0
    let frame2 := anomalyStage cfg frame1
    let frame3 := engineerFeatures cfg frame2
    match buildTargets cfg.sliding_window frame3 with
    | .error e => ⟨readEvents, .error e⟩
    | .ok ds0 =>
      let ds1 := dropna ds0
      match fitTransform (determineScalerFeatures cfg ds1) ds1 with
      | .error e => ⟨readEvents, .error e⟩
      | .ok ds =>
      match splitFrame cfg.splits ds with
      | .error e => ⟨readEvents, .error e⟩
      | .ok (tr, va, te) =>
        let csvEvents := [Event.write "train.csv",
          Event.write "validation.csv", Event.write "test.csv"]
        let featureCols := (colNames ds).filter (fun c =>
          ¬ c.startsWith "target_")
        match cfg.sliding_window.forecast_steps with
        | [] => ⟨readEvents ++ csvEvents, .error .indexError⟩
        | h0 :: _ =>
          let mt := targetName cfg.sliding_window.target_metric h0
          let p := persistSeqLoop featureCols mt
            cfg.sliding_window.sequence_length cfg.sliding_window.stride
            [("train", tr), ("validation", va), ("test", te)]
          match p.2 with
          | some e => ⟨readEvents ++ csvEvents ++ p.1, .error e⟩
          | none => ⟨readEvents ++ csvEvents ++ p.1 ++
              [Event.write "scaler.pkl"], .ok ()⟩

/-!  Auxiliary definitions used only by the verification below. -/

/-- Latest value assigned to a name in a write list, if any. -/
def lastVal (ps : List (String × List (Option ℚ))) (m : String) :
    Option (List (Option ℚ)) :=
  match ps with
  | [] => none
  | p :: rest =>
    match lastVal rest m with
    | some v => some v
    | none => if p.1 = m then some p.2 else none

/-- Batch of lag assignments read off the starting frame. -/
def lagPairs (f : Frame) (columns : List String) (lags : List ℤ) :
    List (String × List (Option ℚ)) :=
  (columns.filter (fun c => c ∈ colNames f)).flatMap
    (fun c => lags.map (fun k => (lagName c k, shiftCells k (getColD f c))))

/-- Freshness side conditions under which the sequential lag fold is a
batch assignment: generated names collide neither with existing columns,
nor with requested columns, nor with each other. -/
def LagFresh (f : Frame) (columns : List String) (lags : List ℤ) : Prop :=
  (∀ c ∈ columns, ∀ k ∈ lags,
      lagName c k ∉ colNames f ∧ lagName c k ∉ columns) ∧
  (∀ c ∈ columns, ∀ c' ∈ columns, ∀ k ∈ lags, ∀ k' ∈ lags,
      lagName c k = lagName c' k' → c = c' ∧ k = k') ∧
  columns.Nodup

instance (f : Frame) (columns : List String) (lags : List ℤ) :
    Decidable (LagFresh f columns lags) := by
  unfold LagFresh; infer_instance

/-- Squared z-score of one cell, stated row-wise exactly as claim C5
describes it: column mean and population standard deviation over the
valid values, a zero standard deviation replaced by `1.0` (so the
z-score degenerates to `x - mean`), `none` for a NaN z-score. -/
def rowZ2 (xs : List (Option ℚ)) (i : ℕ) : Option ℚ :=
  let valid := xs.filterMap id
  if valid.isEmpty then none
  else
    (cellAt xs i).map (fun x =>
      if listPopVar valid = 0 then (x - listMean valid) ^ 2
      else (x - listMean valid) ^ 2 / listPopVar valid)

/-- Whether claim C5 keeps the cell at row `i` of the columns named in
`columns` that are present in `f`: all squared z-scores within the
threshold. -/
def rowKeep (f : Frame) (columns : List String) (t : WithTop ℚ) (i : ℕ) :
    Bool :=
  (columns.filter (fun c => c ∈ colNames f)).all
    (fun c => zLeThreshold (rowZ2 (getColD f c) i) t)

/-!  Concrete frames, inputs and configurations used by witnesses and
counterexamples.  All numeric values are exactly representable binary
floats, so the rational model agrees with the float computation. -/

/-- Concrete frame used by witnesses of the feature/target theorems. -/
def fLagW : Frame := ⟨[0, 1, 2], [("a", [some 10, some 20, some 30])]⟩

/-- Ten-row one-column frame used by the splitter theorems. -/
def f10W : Frame :=
  ⟨(List.range 10).map (fun i => (i : ℤ)),
   [("m", (List.range 10).map (fun i => some ((i : ℕ) : ℚ)))]⟩

/-- Four-sample single-metric input used by the run-level theorems. -/
def inputsW : List RawFile :=
  [⟨"a.csv", [⟨0, "m", 1⟩, ⟨1, "m", 2⟩, ⟨2, "m", 3⟩, ⟨3, "m", 4⟩]⟩]

/-- Configuration with validator-accepted ratios 1/2, 1/2, 1/2 whose sum
3/2 violates the 1e-6 tolerance. -/
def cfgC2bad : PreprocessorConfig :=
  { metrics := ["m"], scaler_features := [], resample_rule := 1,
    features := ⟨false, [], []⟩,
    anomaly := ⟨false, ((3 : ℚ) : WithTop ℚ)⟩,
    sliding_window := ⟨2, [1], 1, "m"⟩,
    splits := ⟨1/2, 1/2, 1/2⟩ }

/-- Configuration with an empty `forecast_steps` list and otherwise
valid settings. -/
def cfgC3empty : PreprocessorConfig :=
  { cfgC2bad with
    sliding_window := ⟨2, [], 1, "m"⟩,
    splits := ⟨1/2, 1/4, 1/4⟩ }

/-- Configuration whose `scaler_features` names only a column absent
from the frame. -/
def cfgC10 : PreprocessorConfig :=
  { cfgC2bad with scaler_features := ["zzz"] }

theorem maskFilter_replicate_true (xs : List α) (n : ℕ) (h : xs.length = n) :
    maskFilter (List.replicate n true) xs = xs := by
  subst h
  induction xs with
  | nil => rfl
  | cons x xs ih =>
    simpa [maskFilter, List.replicate_succ] using ih

theorem find_setColList (cs : List (String × List (Option ℚ)))
    (n m : String) (v : List (Option ℚ)) :
    ((setColList cs n v).find? (fun c => c.1 = m)).map (·.2)
      = if m = n then some v
        else (cs.find? (fun c => c.1 = m)).map (·.2) := by
  induction cs with
  | nil =>
    simp only [setColList]
    by_cases h : m = n
    · subst h; simp [List.find?]
    · have h' : ¬ n = m := fun e => h e.symm
      simp [List.find?, h, h']
  | cons c cs ih =>
    simp only [setColList]
    by_cases hc : c.1 = n
    · simp only [if_pos hc]
      by_cases h : m = n
      · subst h; simp [List.find?_cons]
      · have h' : ¬ n = m := fun e => h e.symm
        have hcm : ¬ c.1 = m := fun e => h' (hc ▸ e)
        simp [List.find?_cons, h, h', hcm]
    · simp only [if_neg hc]
      by_cases hm : c.1 = m
      · have h : ¬ m = n := fun e => hc (by rw [hm, e])
        simp [List.find?_cons, hm, h]
      · simp [List.find?_cons, hm, ih]

theorem getCol_setCol (f : Frame) (n m : String) (v : List (Option ℚ)) :
    getCol (setCol f n v) m = if m = n then some v else getCol f m :=
  find_setColList f.cols n m v

theorem index_setCol (f : Frame) (n : String) (v : List (Option ℚ)) :
    (setCol f n v).index = f.index := rfl

theorem mem_colNames_setColList (cs : List (String × List (Option ℚ)))
    (n m : String) (v : List (Option ℚ)) :
    m ∈ (setColList cs n v).map (·.1) ↔ m = n ∨ m ∈ cs.map (·.1) := by
  induction cs with
  | nil => simp [setColList]
  | cons c cs ih =>
    by_cases hc : c.1 = n
    · subst hc; simp [setColList]; try tauto
    · simp [setColList, hc, ih]; try tauto

theorem mem_colNames_setCol (f : Frame) (n m : String) (v : List (Option ℚ)) :
    m ∈ colNames (setCol f n v) ↔ m = n ∨ m ∈ colNames f :=
  mem_colNames_setColList f.cols n m v

theorem getCol_setCols (f : Frame) (ps : List (String × List (Option ℚ)))
    (m : String) :
    getCol (setCols f ps) m
      = match lastVal ps m with
        | some v => some v
        | none => getCol f m := by
  induction ps generalizing f with
  | nil => rfl
  | cons p ps ih =>
    show getCol (setCols (setCol f p.1 p.2) ps) m = _
    rw [ih]
    rcases h : lastVal ps m with _ | v
    · simp only [lastVal, h, getCol_setCol]
      by_cases hm : m = p.1
      · subst hm; simp
      · have : ¬ p.1 = m := fun e => hm e.symm
        simp [hm, this]
    · simp [lastVal, h]

theorem index_setCols (f : Frame) (ps : List (String × List (Option ℚ))) :
    (setCols f ps).index = f.index := by
  induction ps generalizing f with
  | nil => rfl
  | cons p ps ih => exact ih (setCol f p.1 p.2)

theorem mem_colNames_setCols (f : Frame)
    (ps : List (String × List (Option ℚ))) (m : String) :
    m ∈ colNames (setCols f ps) ↔ m ∈ ps.map (·.1) ∨ m ∈ colNames f := by
  induction ps generalizing f with
  | nil => simp [setCols]
  | cons p ps ih =>
    show m ∈ colNames (setCols (setCol f p.1 p.2) ps) ↔ _
    rw [ih, mem_colNames_setCol]
    simp; tauto

theorem setCols_append (f : Frame) (ps qs : List (String × List (Option ℚ))) :
    setCols f (ps ++ qs) = setCols (setCols f ps) qs :=
  List.foldl_append _ _ _ _

theorem lastVal_append (ps qs : List (String × List (Option ℚ)))
    (m : String) :
    lastVal (ps ++ qs) m
      = match lastVal qs m with
        | some v => some v
        | none => lastVal ps m := by
  induction ps with
  | nil => simp; rcases lastVal qs m <;> rfl
  | cons p ps ih =>
    have step : lastVal (p :: (ps ++ qs)) m
        = match lastVal (ps ++ qs) m with
          | some v => some v
          | none => if p.1 = m then some p.2 else none := rfl
    rw [List.cons_append, step, ih]
    rcases lastVal qs m with _ | v
    · rcases h2 : lastVal ps m with _ | w <;> simp [lastVal, h2]
    · rfl

theorem lastVal_of_name_notMem (ps : List (String × List (Option ℚ)))
    (m : String) (h : ∀ p ∈ ps, p.1 ≠ m) : lastVal ps m = none := by
  induction ps with
  | nil => rfl
  | cons p ps ih =>
    rw [lastVal, ih (fun q hq => h q (List.mem_cons_of_mem _ hq))]
    simp [h p (List.mem_cons_self _ _)]

/-!  Lemmas about `shiftCells`. -/

theorem shiftCells_length (k : ℤ) (xs : List (Option ℚ)) :
    (shiftCells k xs).length = xs.length := by
  simp [shiftCells]

theorem cellAt_shiftCells (k : ℤ) (xs : List (Option ℚ)) (n : ℕ)
    (hn : n < xs.length) :
    cellAt (shiftCells k xs) n
      = if 0 ≤ (n : ℤ) - k ∧ (n : ℤ) - k < (xs.length : ℤ)
        then cellAt xs ((n : ℤ) - k).toNat else none := by
  unfold cellAt shiftCells
  rw [List.get?_map, List.get?_range hn]
  rfl

/-!  Normalising the sequential column-adding folds of
`add_lag_features` and `_build_targets` into one batch of assignments. -/

theorem getColD_length (f : Frame) (c : String) (hwf : f.WF)
    (h : c ∈ colNames f) : (getColD f c).length = f.numRows := by
  obtain ⟨p, hp, hp1⟩ := List.mem_map.mp h
  have hsome : (f.cols.find? (fun q => q.1 = c)).isSome :=
    List.find?_isSome.mpr ⟨p, hp, by simp [hp1]⟩
  obtain ⟨q, hq⟩ := Option.isSome_iff_exists.mp hsome
  have hqmem : q ∈ f.cols := List.mem_of_find?_eq_some hq
  unfold getColD getCol Frame.numRows
  rw [hq]
  simpa using hwf q hqmem

theorem foldl_setCol_from_src {α : Type} (src : String) (items : List α)
    (nameOf : α → String) (mk : α → List (Option ℚ) → List (Option ℚ))
    (h : ∀ a ∈ items, nameOf a ≠ src) (acc : Frame) :
    items.foldl (fun b a => setCol b (nameOf a) (mk a (getColD b src))) acc
      = setCols acc
          (items.map (fun a => (nameOf a, mk a (getColD acc src)))) := by
  induction items generalizing acc with
  | nil => rfl
  | cons a items ih =>
    have hname : nameOf a ≠ src := h a (List.mem_cons_self _ _)
    have hsrc :
        getColD (setCol acc (nameOf a) (mk a (getColD acc src))) src
          = getColD acc src := by
      unfold getColD
      rw [getCol_setCol]
      have hns : ¬ src = nameOf a := fun e => hname e.symm
      rw [if_neg hns]
    show items.foldl _ (setCol acc (nameOf a) (mk a (getColD acc src))) = _
    rw [ih (fun b hb => h b (List.mem_cons_of_mem _ hb))]
    show setCols (setCol acc (nameOf a) (mk a (getColD acc src)))
        (items.map fun b =>
          (nameOf b, mk b (getColD (setCol acc (nameOf a)
            (mk a (getColD acc src))) src)))
      = setCols (setCol acc (nameOf a) (mk a (getColD acc src)))
          (items.map fun b => (nameOf b, mk b (getColD acc src)))
    rw [hsrc]

theorem flatMap_congr_left {α β : Type} (l : List α) (f g : α → List β)
    (h : ∀ a ∈ l, f a = g a) : l.flatMap f = l.flatMap g := by
  induction l with
  | nil => rfl
  | cons a l ih =>
    simp only [List.flatMap_cons]
    rw [h a (List.mem_cons_self _ _),
      ih (fun b hb => h b (List.mem_cons_of_mem _ hb))]

theorem lagFresh_tail (f : Frame) (c : String) (cs : List String)
    (lags : List ℤ) (h : LagFresh f (c :: cs) lags) : LagFresh f cs lags := by
  obtain ⟨h1, h2, h3⟩ := h
  refine ⟨fun c' hc' k hk => ⟨(h1 c' (List.mem_cons_of_mem _ hc') k hk).1,
    fun hmem => (h1 c' (List.mem_cons_of_mem _ hc') k hk).2
      (List.mem_cons_of_mem _ hmem)⟩,
    fun a ha a' ha' k hk k' hk' he =>
      h2 a (List.mem_cons_of_mem _ ha) a' (List.mem_cons_of_mem _ ha')
        k hk k' hk' he,
    (List.nodup_cons.mp h3).2⟩

theorem add_lag_features_norm (f : Frame) (columns : List String)
    (lags : List ℤ) (h : LagFresh f columns lags) :
    add_lag_features f columns lags = setCols f (lagPairs f columns lags) := by
  induction columns generalizing f with
  | nil => rfl
  | cons c cs ih =>
    obtain ⟨h1, h2, h3⟩ := h
    have hcnotcs : c ∉ cs := (List.nodup_cons.mp h3).1
    by_cases hc : c ∈ colNames f
    · have hne : ∀ k ∈ lags, lagName c k ≠ c := fun k hk e =>
        (h1 c (List.mem_cons_self _ _) k hk).2
          (by rw [e]; exact List.mem_cons_self _ _)
      have inner := foldl_setCol_from_src c lags (fun k => lagName c k)
        (fun k xs => shiftCells k xs) hne f
      set P := lags.map (fun k => (lagName c k, shiftCells k (getColD f c)))
        with hP
      have hPnames : ∀ p ∈ P, ∃ k'' ∈ lags, p.1 = lagName c k'' := by
        intro p hp
        simp only [hP, List.mem_map] at hp
        obtain ⟨k'', hk'', he⟩ := hp
        exact ⟨k'', hk'', by rw [← he]⟩
      have hfresh' : LagFresh (setCols f P) cs lags := by
        obtain ⟨g1, g2, g3⟩ := lagFresh_tail f c cs lags ⟨h1, h2, h3⟩
        refine ⟨fun c' hc' k hk => ⟨?_, (g1 c' hc' k hk).2⟩, g2, g3⟩
        rw [mem_colNames_setCols]
        rintro (hmem | hmem)
        · obtain ⟨p, hp, hp1⟩ := List.mem_map.mp hmem
          obtain ⟨k'', hk'', he⟩ := hPnames p hp
          have heq : lagName c' k = lagName c k'' := hp1.symm.trans he
          have := h2 c' (List.mem_cons_of_mem _ hc') c (List.mem_cons_self _ _)
            k hk k'' hk'' heq
          exact hcnotcs (this.1 ▸ hc')
        · exact (g1 c' hc' k hk).1 hmem
      have hgetP : ∀ c' ∈ cs, getColD (setCols f P) c' = getColD f c' := by
        intro c' hc'
        have hnone : lastVal P c' = none := by
          apply lastVal_of_name_notMem
          intro p hp
          obtain ⟨k'', hk'', he⟩ := hPnames p hp
          rw [he]
          intro e
          exact (h1 c (List.mem_cons_self _ _) k'' hk'').2
            (by rw [e]; exact List.mem_cons_of_mem _ hc')
        unfold getColD
        rw [getCol_setCols, hnone]
      have hpairs : lagPairs (setCols f P) cs lags = lagPairs f cs lags := by
        unfold lagPairs
        have hfilter : cs.filter (fun c' => c' ∈ colNames (setCols f P))
            = cs.filter (fun c' => c' ∈ colNames f) := by
          apply List.filter_congr
          intro c' hc'
          simp only [decide_eq_decide, mem_colNames_setCols]
          constructor
          · rintro (hmem | hmem)
            · exfalso
              obtain ⟨p, hp, hp1⟩ := List.mem_map.mp hmem
              obtain ⟨k'', hk'', he⟩ := hPnames p hp
              have hmem2 : lagName c k'' ∈ cs := by
                rw [← he, hp1]; exact hc'
              exact (h1 c (List.mem_cons_self _ _) k'' hk'').2
                (List.mem_cons_of_mem _ hmem2)
            · exact hmem
          · exact fun hmem => Or.inr hmem
        rw [hfilter]
        apply flatMap_congr_left
        intro c' hc'
        rw [hgetP c' (List.mem_filter.mp hc').1]
      have step1 : add_lag_features f (c :: cs) lags
          = add_lag_features (setCols f P) cs lags := by
        unfold add_lag_features
        rw [List.foldl_cons, if_pos hc, inner]
      rw [step1, ih (setCols f P) hfresh', hpairs, ← setCols_append]
      congr 1
      simp [lagPairs, List.filter_cons, hc, List.flatMap_cons, hP]
    · have step1 : add_lag_features f (c :: cs) lags
          = add_lag_features f cs lags := by
        unfold add_lag_features
        rw [List.foldl_cons, if_neg hc]
      rw [step1, ih f (lagFresh_tail f c cs lags ⟨h1, h2, h3⟩)]
      congr 1
      simp [lagPairs, List.filter_cons, hc]

theorem lastVal_of_uniform (ps : List (String × List (Option ℚ)))
    (m : String) (v : List (Option ℚ))
    (hall : ∀ p ∈ ps, p.1 = m → p.2 = v) (hex : ∃ p ∈ ps, p.1 = m) :
    lastVal ps m = some v := by
  induction ps with
  | nil =>
    obtain ⟨p, hp, _⟩ := hex
    exact absurd hp (List.not_mem_nil p)
  | cons p ps ih =>
    have step : lastVal (p :: ps) m
        = match lastVal ps m with
          | some w => some w
          | none => if p.1 = m then some p.2 else none := rfl
    by_cases hex' : ∃ q ∈ ps, q.1 = m
    · rw [step, ih (fun q hq hqm => hall q (List.mem_cons_of_mem _ hq) hqm) hex']
    · have hnone : lastVal ps m = none :=
        lastVal_of_name_notMem ps m (fun q hq e => hex' ⟨q, hq, e⟩)
      obtain ⟨q, hq, hqm⟩ := hex
      rcases List.mem_cons.mp hq with rfl | hq'
      · rw [step, hnone, if_pos hqm, hall q (List.mem_cons_self _ _) hqm]
      · exact absurd ⟨q, hq', hqm⟩ hex'

theorem mem_lagPairs (f : Frame) (columns : List String) (lags : List ℤ)
    (p : String × List (Option ℚ)) (h : p ∈ lagPairs f columns lags) :
    ∃ c' ∈ columns, ∃ k' ∈ lags, c' ∈ colNames f ∧
      p = (lagName c' k', shiftCells k' (getColD f c')) := by
  unfold lagPairs at h
  obtain ⟨c', hc', hp⟩ := List.mem_flatMap.mp h
  have hc'f := List.mem_filter.mp hc'
  obtain ⟨k', hk', he⟩ := List.mem_map.mp hp
  exact ⟨c', hc'f.1, k', hk', by simpa using hc'f.2, he.symm⟩

theorem pair_mem_lagPairs (f : Frame) (columns : List String) (lags : List ℤ)
    (c : String) (k : ℤ) (hc : c ∈ columns) (hcf : c ∈ colNames f)
    (hk : k ∈ lags) :
    (lagName c k, shiftCells k (getColD f c)) ∈ lagPairs f columns lags := by
  unfold lagPairs
  exact List.mem_flatMap.mpr ⟨c, List.mem_filter.mpr ⟨hc, by simpa⟩,
    List.mem_map.mpr ⟨k, hk, rfl⟩⟩

theorem cellAt_none_of_le (xs : List (Option ℚ)) (n : ℕ)
    (h : xs.length ≤ n) : cellAt xs n = none := by
  unfold cellAt
  rw [List.get?_eq_none.mpr h]
  rfl

/-- C7: for every metric column `c` present in the frame and every
configured lag `k ≥ 0` (under the freshness conditions making the
generated names unambiguous), `add_lag_features` adds a column named
`c ++ "_lag_" ++ k` whose value at row `n` equals the raw value of `c`
at row `n - k` for all `n ≥ k` and is null for the first `k` rows, and
every input column passes through unchanged. -/
theorem lag_column_spec_C7 (f : Frame) (columns : List String)
    (lags : List ℤ) (c : String) (k : ℤ) (hwf : f.WF)
    (hfresh : LagFresh f columns lags) (hc : c ∈ columns)
    (hcf : c ∈ colNames f) (hk : k ∈ lags) (hk0 : 0 ≤ k) :
    getCol (add_lag_features f columns lags) (lagName c k)
        = some (shiftCells k (getColD f c)) ∧
    (∀ n : ℕ, n < f.numRows → k.toNat ≤ n →
      cellAt (getColD (add_lag_features f columns lags) (lagName c k)) n
        = cellAt (getColD f c) (n - k.toNat)) ∧
    (∀ n : ℕ, n < k.toNat →
      cellAt (getColD (add_lag_features f columns lags) (lagName c k)) n
        = none) ∧
    (∀ m ∈ colNames f,
      getCol (add_lag_features f columns lags) m = getCol f m) := by
  obtain ⟨h1, h2, h3⟩ := hfresh
  have hnorm := add_lag_features_norm f columns lags ⟨h1, h2, h3⟩
  have hlast : lastVal (lagPairs f columns lags) (lagName c k)
      = some (shiftCells k (getColD f c)) := by
    apply lastVal_of_uniform
    · intro p hp hpm
      obtain ⟨c', hc', k', hk', hcf', he⟩ := mem_lagPairs f columns lags p hp
      have hp1 : p.1 = lagName c' k' := by rw [he]
      rw [hp1] at hpm
      have hck := h2 c' hc' c hc k' hk' k hk hpm
      rw [he]
      simp only [hck.1, hck.2]
    · exact ⟨(lagName c k, shiftCells k (getColD f c)),
        pair_mem_lagPairs f columns lags c k hc hcf hk, rfl⟩
  have hget : getCol (add_lag_features f columns lags) (lagName c k)
      = some (shiftCells k (getColD f c)) := by
    rw [hnorm, getCol_setCols, hlast]
  have hgd : getColD (add_lag_features f columns lags) (lagName c k)
      = shiftCells k (getColD f c) := by
    unfold getColD
    rw [hget]
    rfl
  have hlen : (getColD f c).length = f.numRows := getColD_length f c hwf hcf
  refine ⟨hget, ?_, ?_, ?_⟩
  · intro n hn hkn
    rw [hgd, cellAt_shiftCells k _ n (by rw [hlen]; exact hn)]
    have hcond : 0 ≤ (n : ℤ) - k ∧
        (n : ℤ) - k < ((getColD f c).length : ℤ) := by
      rw [hlen]
      unfold Frame.numRows at hn ⊢
      omega
    rw [if_pos hcond]
    have : ((n : ℤ) - k).toNat = n - k.toNat := by omega
    rw [this]
  · intro n hn
    by_cases hnr : n < (getColD f c).length
    · rw [hgd, cellAt_shiftCells k _ n hnr]
      rw [if_neg (by omega)]
    · rw [hgd]
      exact cellAt_none_of_le _ n (by rw [shiftCells_length]; omega)
  · intro m hm
    have hnone : lastVal (lagPairs f columns lags) m = none := by
      apply lastVal_of_name_notMem
      intro p hp
      obtain ⟨c', hc', k', hk', hcf', he⟩ := mem_lagPairs f columns lags p hp
      have hp1 : p.1 = lagName c' k' := by rw [he]
      rw [hp1]
      intro e
      exact (h1 c' hc' k' hk').1 (by rw [e]; exact hm)
    rw [hnorm, getCol_setCols, hnone]

/-- Witness instantiating C7: the lag-1 column of a three-row frame. -/
theorem lag_column_spec_C7_witness :
    getCol (add_lag_features fLagW ["a"] [1]) (lagName "a" 1)
      = some (shiftCells 1 (getColD fLagW "a")) :=
  (lag_column_spec_C7 fLagW ["a"] [1] "a" 1 (by decide) (by decide)
    (by decide) (by decide) (by decide) (by decide)).1

theorem buildTargets_norm (sw : SlidingWindowConfig) (f : Frame)
    (hm : sw.target_metric ∈ colNames f)
    (hne : ∀ h' ∈ sw.forecast_steps,
      targetName sw.target_metric h' ≠ sw.target_metric) :
    buildTargets sw f = .ok (setCols f (sw.forecast_steps.map (fun h =>
      (targetName sw.target_metric h,
        shiftCells (-h) (getColD f sw.target_metric))))) := by
  unfold buildTargets
  by_cases hsteps : sw.forecast_steps.isEmpty
  · have he : sw.forecast_steps = [] := List.isEmpty_iff.mp hsteps
    rw [if_pos hsteps, he]
    rfl
  · rw [if_neg hsteps, if_pos hm,
      foldl_setCol_from_src sw.target_metric sw.forecast_steps
        (fun h => targetName sw.target_metric h)
        (fun h xs => shiftCells (-h) xs) hne f]

/-- C8: for the configured target metric and every configured horizon
`h ≥ 0` (under freshness conditions making the generated names
unambiguous), `_build_targets` adds a column `target_{m}_t+{h}` whose
value at row `n` equals the target metric's raw value at row `n + h`
whenever that row exists, and is null for the trailing rows; one such
column exists per horizon. -/
theorem target_columns_spec_C8 (sw : SlidingWindowConfig) (f g : Frame)
    (h : ℤ) (hwf : f.WF) (hok : buildTargets sw f = .ok g)
    (hm : sw.target_metric ∈ colNames f)
    (hne : ∀ h' ∈ sw.forecast_steps,
      targetName sw.target_metric h' ≠ sw.target_metric)
    (hinj : ∀ h' ∈ sw.forecast_steps,
      targetName sw.target_metric h' = targetName sw.target_metric h →
        h' = h)
    (hh : h ∈ sw.forecast_steps) (hh0 : 0 ≤ h) :
    targetName sw.target_metric h ∈ colNames g ∧
    (∀ n : ℕ, n + h.toNat < f.numRows →
      cellAt (getColD g (targetName sw.target_metric h)) n
        = cellAt (getColD f sw.target_metric) (n + h.toNat)) ∧
    (∀ n : ℕ, n < f.numRows → f.numRows ≤ n + h.toNat →
      cellAt (getColD g (targetName sw.target_metric h)) n = none) := by
  have hnorm := buildTargets_norm sw f hm hne
  rw [hok] at hnorm
  have hg : g = setCols f (sw.forecast_steps.map (fun h =>
      (targetName sw.target_metric h,
        shiftCells (-h) (getColD f sw.target_metric)))) :=
    (Except.ok.injEq _ _ ).mp hnorm
  have hlast : lastVal (sw.forecast_steps.map (fun h =>
        (targetName sw.target_metric h,
          shiftCells (-h) (getColD f sw.target_metric))))
      (targetName sw.target_metric h)
      = some (shiftCells (-h) (getColD f sw.target_metric)) := by
    apply lastVal_of_uniform
    · intro p hp hpm
      obtain ⟨h', hh', he⟩ := List.mem_map.mp hp
      have hp1 : p.1 = targetName sw.target_metric h' := by rw [← he]
      rw [hp1] at hpm
      rw [← he, hinj h' hh' hpm]
    · exact ⟨(targetName sw.target_metric h,
        shiftCells (-h) (getColD f sw.target_metric)),
        List.mem_map.mpr ⟨h, hh, rfl⟩, rfl⟩
  have hget : getCol g (targetName sw.target_metric h)
      = some (shiftCells (-h) (getColD f sw.target_metric)) := by
    rw [hg, getCol_setCols, hlast]
  have hgd : getColD g (targetName sw.target_metric h)
      = shiftCells (-h) (getColD f sw.target_metric) := by
    unfold getColD
    rw [hget]
    rfl
  have hlen : (getColD f sw.target_metric).length = f.numRows :=
    getColD_length f sw.target_metric hwf hm
  refine ⟨?_, ?_, ?_⟩
  · rw [hg, mem_colNames_setCols]
    exact Or.inl (List.mem_map.mpr
      ⟨(targetName sw.target_metric h,
        shiftCells (-h) (getColD f sw.target_metric)),
        List.mem_map.mpr ⟨h, hh, rfl⟩, rfl⟩)
  · intro n hn
    have hnr : n < (getColD f sw.target_metric).length := by
      rw [hlen]; omega
    rw [hgd, cellAt_shiftCells (-h) _ n hnr]
    have hcond : 0 ≤ (n : ℤ) - (-h) ∧
        (n : ℤ) - (-h) < ((getColD f sw.target_metric).length : ℤ) := by
      rw [hlen]
      unfold Frame.numRows at hn ⊢
      omega
    rw [if_pos hcond]
    have : ((n : ℤ) - (-h)).toNat = n + h.toNat := by omega
    rw [this]
  · intro n hn hnh
    have hnr : n < (getColD f sw.target_metric).length := by
      rw [hlen]; exact hn
    rw [hgd, cellAt_shiftCells (-h) _ n hnr]
    rw [if_neg (by rw [hlen]; unfold Frame.numRows at hn hnh ⊢; omega)]

/-- Witness instantiating C8: one horizon-1 target column on a
three-row frame. -/
theorem target_columns_spec_C8_witness :
    targetName "a" 1 ∈ colNames
      (setCols fLagW [(targetName "a" 1,
        shiftCells (-1) (getColD fLagW "a"))]) :=
  (target_columns_spec_C8 ⟨2, [1], 1, "a"⟩ fLagW
    (setCols fLagW [(targetName "a" 1, shiftCells (-1) (getColD fLagW "a"))])
    1 (by decide) (by decide) (by decide) (by decide) (by decide)
    (by decide) (by decide)).1

/-!  Splitter (`_split`): claims C1 and C6. -/

theorem slice_concat (l : List α) (a b : ℕ) (hab : a ≤ b) :
    pySlice 0 a l ++ (pySlice a b l ++ l.drop b) = l := by
  unfold pySlice
  have h1 : (l.take a).drop 0 = l.take a := List.drop_zero _
  have h2 : l.take a ++ (l.take b).drop a = l.take b := by
    conv_rhs => rw [← List.take_append_drop a (l.take b)]
    rw [List.take_take, min_eq_left hab]
  rw [h1, ← List.append_assoc, h2, List.take_append_drop]

theorem zipWith_map_same {α β γ δ : Type} (l : List α) (g : α → β)
    (h : α → γ) (k : β → γ → δ) :
    List.zipWith k (l.map g) (l.map h) = l.map (fun x => k (g x) (h x)) := by
  induction l with
  | nil => rfl
  | cons a l ih => simp [ih]

theorem splitFrame_ok_elim (s : DatasetSplitConfig) (f : Frame)
    (tr va te : Frame) (hok : splitFrame s f = .ok (tr, va, te)) :
    tr = sliceRows f 0 ((pyInt ((f.numRows : ℚ) * s.train)).toNat) ∧
    va = sliceRows f ((pyInt ((f.numRows : ℚ) * s.train)).toNat)
      ((pyInt ((f.numRows : ℚ) * s.train)).toNat
        + (pyInt ((f.numRows : ℚ) * s.validation)).toNat) ∧
    te = sliceRowsFrom f ((pyInt ((f.numRows : ℚ) * s.train)).toNat
        + (pyInt ((f.numRows : ℚ) * s.validation)).toNat) := by
  unfold splitFrame at hok
  split_ifs at hok
  simp only [Except.ok.injEq, Prod.mk.injEq] at hok
  exact ⟨hok.1.symm, hok.2.1.symm, hok.2.2.symm⟩

/-- C6: whenever the splitter succeeds, the three slices' row counts sum
exactly to the dataset's row count, and concatenating train, validation
and test in order reconstructs the original frame (hence no row is
duplicated or lost and order is preserved). -/
theorem split_partition_C6 (s : DatasetSplitConfig) (f : Frame)
    (tr va te : Frame) (hok : splitFrame s f = .ok (tr, va, te)) :
    tr.numRows + va.numRows + te.numRows = f.numRows ∧
    appendF tr (appendF va te) = f := by
  obtain ⟨htr, hva, hte⟩ := splitFrame_ok_elim s f tr va te hok
  set a := (pyInt ((f.numRows : ℚ) * s.train)).toNat with ha
  set b := a + (pyInt ((f.numRows : ℚ) * s.validation)).toNat with hb
  have hab : a ≤ b := Nat.le_add_right _ _
  have happ : appendF tr (appendF va te) = f := by
    rw [htr, hva, hte]
    unfold appendF sliceRows sliceRowsFrom
    simp only [zipWith_map_same]
    have hidx : pySlice 0 a f.index ++ (pySlice a b f.index ++ f.index.drop b)
        = f.index := slice_concat f.index a b hab
    have hcols2 : List.map (fun c : String × List (Option ℚ) =>
        (c.1, pySlice 0 a c.2 ++ (pySlice a b c.2 ++ c.2.drop b))) f.cols
        = f.cols := by
      have hgen : ∀ c ∈ f.cols,
          (fun c : String × List (Option ℚ) =>
            (c.1, pySlice 0 a c.2 ++ (pySlice a b c.2 ++ c.2.drop b))) c = c :=
        fun c _ => by
          show (c.1, pySlice 0 a c.2 ++ (pySlice a b c.2 ++ c.2.drop b)) = c
          rw [slice_concat c.2 a b hab]
      rw [List.map_congr_left hgen]
      exact List.map_id' f.cols
    rw [hidx, hcols2]
  refine ⟨?_, happ⟩
  have hlen := congrArg (fun g : Frame => g.index.length) happ
  simp only [appendF, List.length_append] at hlen
  unfold Frame.numRows
  omega

/-- Witness instantiating C6 at the ten-row frame with ratios
1/4, 1/4, 1/2. -/
theorem split_partition_C6_witness :
    (sliceRows f10W 0 2).numRows + (sliceRows f10W 2 4).numRows
      + (sliceRowsFrom f10W 4).numRows = f10W.numRows :=
  (split_partition_C6 ⟨1/4, 1/4, 1/2⟩ f10W (sliceRows f10W 0 2)
    (sliceRows f10W 2 4) (sliceRowsFrom f10W 4)
    (by with_unfolding_all decide)).1

/-- C1 counterexample: with 10 rows and ratios 1/4, 1/4, 1/2 (a
validator-accepted configuration whose ratios sum to exactly 1), the
code's validation block has 2 rows, while the claimed size
`floor(total*(train+validation)) - floor(total*train)` is 3. -/
theorem split_sizes_C1_counterexample :
    DatasetSplitConfig.fieldsValid ⟨1/4, 1/4, 1/2⟩ = true ∧
    (match splitFrame ⟨1/4, 1/4, 1/2⟩ f10W with
      | .ok (_, va, _) => va.numRows
      | .error _ => 0) = 2 ∧
    (⌊(10 : ℚ) * (1/4 + 1/4)⌋ - ⌊(10 : ℚ) * (1/4)⌋ : ℤ) = 3 ∧
    (2 : ℕ) ≠ 3 := by
  refine ⟨by with_unfolding_all decide, by with_unfolding_all decide, ?_, ?_⟩
  · norm_num
  · decide

/-- C1 (amended): for nonnegative ratios with `train + validation ≤ 1`,
the splitter cuts three contiguous blocks of sizes
`floor(total*train)`, `floor(total*validation)` (not
`floor(total*(train+validation)) - floor(total*train)`), and the
remainder for test. -/
theorem split_sizes_C1_amended (s : DatasetSplitConfig) (f : Frame)
    (tr va te : Frame) (h0t : 0 ≤ s.train) (h0v : 0 ≤ s.validation)
    (hsum : s.train + s.validation ≤ 1)
    (hok : splitFrame s f = .ok (tr, va, te)) :
    tr.numRows = (⌊(f.numRows : ℚ) * s.train⌋).toNat ∧
    va.numRows = (⌊(f.numRows : ℚ) * s.validation⌋).toNat ∧
    te.numRows = f.numRows - (⌊(f.numRows : ℚ) * s.train⌋).toNat
      - (⌊(f.numRows : ℚ) * s.validation⌋).toNat := by
  obtain ⟨htr, hva, hte⟩ := splitFrame_ok_elim s f tr va te hok
  have hTnn : (0 : ℚ) ≤ (f.numRows : ℚ) := Nat.cast_nonneg _
  have hpt : pyInt ((f.numRows : ℚ) * s.train)
      = ⌊(f.numRows : ℚ) * s.train⌋ := by
    unfold pyInt
    rw [if_pos (mul_nonneg hTnn h0t)]
  have hpv : pyInt ((f.numRows : ℚ) * s.validation)
      = ⌊(f.numRows : ℚ) * s.validation⌋ := by
    unfold pyInt
    rw [if_pos (mul_nonneg hTnn h0v)]
  have hA0 : 0 ≤ ⌊(f.numRows : ℚ) * s.train⌋ :=
    Int.floor_nonneg.mpr (mul_nonneg hTnn h0t)
  have hX0 : 0 ≤ ⌊(f.numRows : ℚ) * s.validation⌋ :=
    Int.floor_nonneg.mpr (mul_nonneg hTnn h0v)
  have hAX : ⌊(f.numRows : ℚ) * s.train⌋ + ⌊(f.numRows : ℚ) * s.validation⌋
      ≤ (f.numRows : ℤ) := by
    have h1 : ⌊(f.numRows : ℚ) * s.train⌋ + ⌊(f.numRows : ℚ) * s.validation⌋
        ≤ ⌊(f.numRows : ℚ) * s.train + (f.numRows : ℚ) * s.validation⌋ := by
      apply Int.le_floor.mpr
      push_cast
      exact add_le_add (Int.floor_le _) (Int.floor_le _)
    have h2 : (f.numRows : ℚ) * s.train + (f.numRows : ℚ) * s.validation
        ≤ (f.numRows : ℚ) := by
      rw [← mul_add]
      calc (f.numRows : ℚ) * (s.train + s.validation)
          ≤ (f.numRows : ℚ) * 1 := by
            exact mul_le_mul_of_nonneg_left hsum hTnn
        _ = (f.numRows : ℚ) := mul_one _
    have h3 : ⌊(f.numRows : ℚ) * s.train + (f.numRows : ℚ) * s.validation⌋
        ≤ ⌊((f.numRows : ℕ) : ℚ)⌋ := Int.floor_le_floor h2
    rw [Int.floor_natCast] at h3
    exact le_trans h1 h3
  rw [htr, hva, hte, hpt, hpv]
  show (pySlice 0 _ f.index).length = _ ∧ (pySlice _ _ f.index).length = _ ∧
    (f.index.drop _).length = _
  unfold pySlice
  simp only [List.length_drop, List.length_take]
  have hT : f.index.length = f.numRows := rfl
  refine ⟨by omega, by omega, by omega⟩

/-!  SequenceBuilder (`build_sequences`): claim C4. -/

theorem rangeStep_length (stop : ℤ) (s : ℕ) (hs : 1 ≤ s) :
    (rangeStep stop s).length
      = (max 0 ((stop - 1).fdiv (s : ℤ) + 1)).toNat := by
  unfold rangeStep
  rw [List.length_map, List.length_range]
  by_cases h : stop ≤ 0
  · rw [if_pos h]
    have hneg : (stop - 1).fdiv (s : ℤ) < 0 :=
      Int.fdiv_neg' (by omega) (by exact_mod_cast hs)
    omega
  · rw [if_neg h]
    have hnn : (0 : ℤ) ≤ stop - 1 := by omega
    have hcast : ((stop - 1).toNat : ℤ) = stop - 1 := Int.toNat_of_nonneg hnn
    have hdiv : (((stop - 1).toNat / s : ℕ) : ℤ)
        = (stop - 1).fdiv (s : ℤ) := by
      rw [Int.ofNat_fdiv, hcast]
    have hfnn : 0 ≤ (stop - 1).fdiv (s : ℤ) :=
      Int.fdiv_nonneg hnn (by positivity)
    omega

theorem rangeStep_get? (stop : ℤ) (s : ℕ) (j : ℕ)
    (hj : j < (rangeStep stop s).length) :
    (rangeStep stop s).get? j = some (j * s) := by
  unfold rangeStep at hj ⊢
  rw [List.length_map, List.length_range] at hj
  rw [List.get?_map, List.get?_range hj]
  rfl

/-- C4: whenever `build_sequences` succeeds on a split of `R` rows with
window length `L ≥ 1` and stride `S ≥ 1`, it produces exactly
`max(0, floor((R-L)/S)+1)` windows; the `j`-th window's paired target is
the target column's value at the window's last row `j*S + L - 1` and its
paired timestamp is that row's time index; when `R < L` the result is an
empty batch, not an error. -/
theorem build_sequences_spec_C4 (f : Frame) (fcs : List String)
    (tc : String) (L S : ℕ) (hL : 1 ≤ L) (hS : 1 ≤ S)
    (htc : tc ∈ colNames f) (hfcs : ∀ c ∈ fcs, c ∈ colNames f)
    (out : List (List (List (Option ℚ))) × List (Option ℚ) × List ℤ)
    (hok : build_sequences f fcs tc L S = .ok out) :
    out.1.length = (max 0 (((f.numRows : ℤ) - L).fdiv (S : ℤ) + 1)).toNat ∧
    out.2.1.length = out.1.length ∧
    out.2.2.length = out.1.length ∧
    (∀ j, j < out.1.length →
      out.2.1.get? j = some (cellAt (getColD f tc) (j * S + L - 1)) ∧
      out.2.2.get? j = f.index.get? (j * S + L - 1)) ∧
    (f.numRows < L → out.1 = []) := by
  unfold build_sequences at hok
  rw [if_neg (not_not.mpr htc), if_neg (not_not.mpr (by
    rw [List.all_eq_true]
    intro c hc
    simpa using hfcs c hc))] at hok
  have hout := (Except.ok.injEq _ _).mp hok
  subst hout
  have hcount : (rangeStep ((f.numRows : ℤ) - L + 1) S).length
      = (max 0 (((f.numRows : ℤ) - L).fdiv (S : ℤ) + 1)).toNat := by
    rw [rangeStep_length _ _ hS]
    have : (f.numRows : ℤ) - L + 1 - 1 = (f.numRows : ℤ) - L := by ring
    rw [this]
  have hjsbound : ∀ j, j < (rangeStep ((f.numRows : ℤ) - L + 1) S).length →
      j * S + L - 1 < f.numRows := by
    intro j hjs
    have hpos : ¬ ((f.numRows : ℤ) - L + 1 ≤ 0) := by
      by_contra hc
      have hz : (rangeStep ((f.numRows : ℤ) - L + 1) S).length = 0 := by
        unfold rangeStep
        rw [if_pos hc]
        rfl
      omega
    have hRL : L ≤ f.numRows := by omega
    have hcnt : (rangeStep ((f.numRows : ℤ) - L + 1) S).length
        = (f.numRows - L) / S + 1 := by
      unfold rangeStep
      rw [if_neg hpos, List.length_map, List.length_range]
      congr 2
      omega
    have hjle : j ≤ (f.numRows - L) / S := by omega
    have hmul : (f.numRows - L) / S * S ≤ f.numRows - L :=
      Nat.div_mul_le_self _ _
    have hjmul : j * S ≤ (f.numRows - L) / S * S :=
      Nat.mul_le_mul_right _ hjle
    omega
  refine ⟨by simpa using hcount, by simp, by simp, ?_, ?_⟩
  · intro j hj
    have hjs : j < (rangeStep ((f.numRows : ℤ) - L + 1) S).length := by
      simpa using hj
    have hget : (rangeStep ((f.numRows : ℤ) - L + 1) S).get? j
        = some (j * S) := rangeStep_get? _ _ j hjs
    have hbound : j * S + L - 1 < f.numRows := hjsbound j hjs
    constructor
    · show ((rangeStep ((f.numRows : ℤ) - L + 1) S).map
        (fun st => cellAt (getColD f tc) (st + L - 1))).get? j = _
      rw [List.get?_map, hget]
      rfl
    · show ((rangeStep ((f.numRows : ℤ) - L + 1) S).map
        (fun st => f.index.getD (st + L - 1) 0)).get? j = _
      rw [List.get?_map, hget]
      simp only [Option.map_some']
      have hidx : j * S + L - 1 < f.index.length := hbound
      rw [List.getD_eq_getElem?_getD, List.getElem?_eq_getElem hidx]
      rw [List.get?_eq_getElem?, List.getElem?_eq_getElem hidx]
      rfl
  · intro hRL
    have hempty : rangeStep ((f.numRows : ℤ) - L + 1) S = [] := by
      unfold rangeStep
      rw [if_pos (by omega)]
      rfl
    show ((rangeStep ((f.numRows : ℤ) - L + 1) S).map _) = []
    rw [hempty]
    rfl

/-- Witness instantiating C4: three rows, window 2, stride 1 give two
windows with targets at rows 1 and 2. -/
theorem build_sequences_spec_C4_witness :
    ([[[some (10 : ℚ)], [some 20]], [[some 20], [some 30]]] :
        List (List (List (Option ℚ)))).length
      = (max 0 (((fLagW.numRows : ℤ) - 2).fdiv (1 : ℤ) + 1)).toNat :=
  (build_sequences_spec_C4 fLagW ["a"] "a" 2 1 (by decide) (by decide)
    (by decide) (by decide)
    ([[[some 10], [some 20]], [[some 20], [some 30]]],
      [some 20, some 30], [1, 2])
    (by with_unfolding_all decide)).1

/-!  AnomalyFilter (`filter_zscore`): claim C5. -/

theorem z2Column_length (xs : List (Option ℚ)) :
    (z2Column xs).length = xs.length := by
  unfold z2Column
  by_cases hv : (xs.filterMap id).isEmpty <;> simp [hv]

theorem cellAt_z2Column (xs : List (Option ℚ)) (i : ℕ) :
    cellAt (z2Column xs) i = rowZ2 xs i := by
  unfold z2Column rowZ2 cellAt
  by_cases hv : (xs.filterMap id).isEmpty
  · simp only [if_pos hv]
    rw [List.get?_map]
    cases xs.get? i <;> rfl
  · simp only [if_neg hv]
    rw [List.get?_map]
    rcases xs.get? i with _ | x
    · rfl
    · cases x <;> rfl

theorem get?_zipWith_and (a b : List Bool) (i : ℕ) :
    (List.zipWith and a b).get? i
      = match a.get? i, b.get? i with
        | some x, some y => some (x && y)
        | _, _ => none := by
  induction a generalizing b i with
  | nil => cases b <;> cases i <;> rfl
  | cons x a ih =>
    cases b with
    | nil =>
      have hz : List.zipWith and (x :: a) ([] : List Bool) = [] := rfl
      rw [hz]
      cases i with
      | zero => rfl
      | succ n => rcases h : (x :: a).get? (n + 1) with _ | v <;> simp [h]
    | cons y b =>
      cases i with
      | zero => rfl
      | succ i => simpa using ih b i

theorem zscoreMask_length (f : Frame) (present : List String)
    (t : WithTop ℚ) (hcols : ∀ c ∈ present, c ∈ colNames f) (hwf : f.WF) :
    (zscoreMask f present t).length = f.numRows := by
  unfold zscoreMask
  suffices h : ∀ (ps : List String) (acc : List Bool),
      (∀ c ∈ ps, c ∈ colNames f) → acc.length = f.numRows →
      (ps.foldl (fun a c => List.zipWith and a
        ((z2Column (getColD f c)).map (fun z => zLeThreshold z t))) acc).length
        = f.numRows by
    exact h present (List.replicate f.numRows true) hcols
      (List.length_replicate _ _)
  intro ps
  induction ps with
  | nil => intro acc _ hacc; exact hacc
  | cons c cs ih =>
    intro acc hcols' hacc
    apply ih _ (fun c' hc' => hcols' c' (List.mem_cons_of_mem _ hc'))
    rw [List.length_zipWith, List.length_map, z2Column_length,
      getColD_length f c hwf (hcols' c (List.mem_cons_self _ _)), hacc]
    exact min_self _

theorem zscoreMask_get? (f : Frame) (present : List String) (t : WithTop ℚ)
    (i : ℕ) (hi : i < f.numRows)
    (hcols : ∀ c ∈ present, c ∈ colNames f) (hwf : f.WF) :
    (zscoreMask f present t).get? i
      = some (present.all
          (fun c => zLeThreshold (rowZ2 (getColD f c) i) t)) := by
  unfold zscoreMask
  suffices h : ∀ (ps : List String) (acc : List Bool),
      (∀ c ∈ ps, c ∈ colNames f) → acc.length = f.numRows →
      (ps.foldl (fun a c => List.zipWith and a
        ((z2Column (getColD f c)).map (fun z => zLeThreshold z t))) acc).get? i
        = (acc.get? i).map (fun b =>
            b && ps.all (fun c => zLeThreshold (rowZ2 (getColD f c) i) t)) by
    rw [h present (List.replicate f.numRows true) hcols
      (List.length_replicate _ _)]
    have hrep : (List.replicate f.numRows true).get? i = some true := by
      rw [List.get?_eq_getElem?, List.getElem?_replicate, if_pos hi]
    rw [hrep]
    simp
  intro ps
  induction ps with
  | nil =>
    intro acc _ _
    rcases h : acc.get? i with _ | b
    · rw [List.foldl_nil, h]
      rfl
    · rw [List.foldl_nil, h]
      simp
  | cons c cs ih =>
    intro acc hcols' hacc
    have hcmem : c ∈ colNames f := hcols' c (List.mem_cons_self _ _)
    have hacc' : (List.zipWith and acc
        ((z2Column (getColD f c)).map (fun z => zLeThreshold z t))).length
        = f.numRows := by
      rw [List.length_zipWith, List.length_map, z2Column_length,
        getColD_length f c hwf hcmem, hacc]
      exact min_self _
    rw [List.foldl_cons,
      ih _ (fun c' hc' => hcols' c' (List.mem_cons_of_mem _ hc')) hacc']
    have hlt : i < (z2Column (getColD f c)).length := by
      rw [z2Column_length, getColD_length f c hwf hcmem]
      exact hi
    rcases hvv : (z2Column (getColD f c)).get? i with _ | v
    · exact absurd (List.get?_eq_none.mp hvv) (by omega)
    · have hrz : rowZ2 (getColD f c) i = v := by
        rw [← cellAt_z2Column]
        unfold cellAt
        rw [hvv]
        rfl
      rw [get?_zipWith_and, List.get?_map, hvv]
      rcases acc.get? i with _ | b
      · rfl
      · simp [hrz, List.all_cons, Bool.and_assoc]

theorem filterMaskF_replicate_true (f : Frame) (hwf : f.WF) :
    filterMaskF f (List.replicate f.numRows true) = f := by
  unfold filterMaskF
  rw [maskFilter_replicate_true f.index f.numRows rfl]
  have hgen : ∀ c ∈ f.cols,
      (fun c : String × List (Option ℚ) =>
        (c.1, maskFilter (List.replicate f.numRows true) c.2)) c = c := by
    intro c hc
    show (c.1, maskFilter (List.replicate f.numRows true) c.2) = c
    rw [maskFilter_replicate_true c.2 f.numRows (hwf c hc)]
  rw [List.map_congr_left hgen, List.map_id']

/-- C5: the AnomalyFilter keeps exactly the rows all of whose squared
z-scores (over the configured metric columns present in the frame, with
zero standard deviations replaced by 1 and NaN z-scores counted as 0)
lie within the threshold; with threshold `∞` it is the identity, and
with the filter disabled the anomaly stage is the identity. -/
theorem filter_zscore_spec_C5 (f : Frame) (columns : List String)
    (t : WithTop ℚ) (hwf : f.WF) :
    filter_zscore f columns t
      = filterMaskF f ((List.range f.numRows).map (rowKeep f columns t)) ∧
    filter_zscore f columns ⊤ = f ∧
    (∀ cfg : PreprocessorConfig, cfg.anomaly.enabled = false →
      anomalyStage cfg f = f) := by
  have key : ∀ t' : WithTop ℚ, filter_zscore f columns t'
      = filterMaskF f ((List.range f.numRows).map (rowKeep f columns t')) := by
    intro t'
    unfold filter_zscore
    by_cases hemp : columns.isEmpty
    · rw [if_pos hemp]
      have hcol : columns = [] := List.isEmpty_iff.mp hemp
      subst hcol
      have hmask : (List.range f.numRows).map (rowKeep f [] t')
          = List.replicate f.numRows true := by
        have hstep : (List.range f.numRows).map (rowKeep f [] t')
            = (List.range f.numRows).map (fun _ => true) :=
          List.map_congr_left (fun i _ => rfl)
        rw [hstep, List.map_const', List.length_range]
      rw [hmask, filterMaskF_replicate_true f hwf]
    · rw [if_neg hemp]
      by_cases hp : (columns.filter (fun c => c ∈ colNames f)).isEmpty
      · rw [if_pos hp]
        have hpe : columns.filter (fun c => c ∈ colNames f) = [] :=
          List.isEmpty_iff.mp hp
        have hmask : (List.range f.numRows).map (rowKeep f columns t')
            = List.replicate f.numRows true := by
          have hone : ∀ i, rowKeep f columns t' i = true := by
            intro i
            unfold rowKeep
            rw [hpe]
            rfl
          have hstep : (List.range f.numRows).map (rowKeep f columns t')
              = (List.range f.numRows).map (fun _ => true) :=
            List.map_congr_left (fun i _ => hone i)
          rw [hstep, List.map_const', List.length_range]
        rw [hmask, filterMaskF_replicate_true f hwf]
      · rw [if_neg hp]
        congr 1
        have hmem : ∀ c ∈ columns.filter (fun c => c ∈ colNames f),
            c ∈ colNames f := by
          intro c hc
          simpa using (List.mem_filter.mp hc).2
        apply List.ext_get?
        intro i
        by_cases hi : i < f.numRows
        · rw [zscoreMask_get? f _ t' i hi hmem hwf, List.get?_map,
            List.get?_range hi]
          rfl
        · have h1 : (zscoreMask f (columns.filter
              (fun c => c ∈ colNames f)) t').get? i = none := by
            apply List.get?_eq_none.mpr
            rw [zscoreMask_length f _ t' hmem hwf]
            omega
          have h2 : (((List.range f.numRows)).map
              (rowKeep f columns t')).get? i = none := by
            apply List.get?_eq_none.mpr
            rw [List.length_map, List.length_range]
            omega
          rw [h1, h2]
  refine ⟨key t, ?_, ?_⟩
  · rw [key ⊤]
    have hmask : (List.range f.numRows).map (rowKeep f columns ⊤)
        = List.replicate f.numRows true := by
      have hone : ∀ i, rowKeep f columns ⊤ i = true := by
        intro i
        unfold rowKeep
        exact List.all_eq_true.mpr (fun c _ => rfl)
      have hstep : (List.range f.numRows).map (rowKeep f columns ⊤)
          = (List.range f.numRows).map (fun _ => true) :=
        List.map_congr_left (fun i _ => hone i)
      rw [hstep, List.map_const', List.length_range]
    rw [hmask, filterMaskF_replicate_true f hwf]
  · intro cfg h
    unfold anomalyStage
    rw [h]
    rfl

/-- Witness instantiating C5: with threshold `∞` the filter leaves the
three-row frame unchanged. -/
theorem filter_zscore_spec_C5_witness :
    filter_zscore fLagW ["a"] ⊤ = fLagW :=
  (filter_zscore_spec_C5 fLagW ["a"] ((3 : ℚ) : WithTop ℚ)
    (by decide)).2.1

end K8sPre

namespace K8sPre

/-- Witness instantiating the amended C1 at the ten-row frame with
ratios 1/4, 1/4, 1/2: the train block has `floor(10*(1/4)) = 2` rows. -/
theorem split_sizes_C1_amended_witness :
    (sliceRows f10W 0 2).numRows = (⌊(f10W.numRows : ℚ) * (1/4)⌋).toNat :=
  (split_sizes_C1_amended ⟨1/4, 1/4, 1/2⟩ f10W (sliceRows f10W 0 2)
    (sliceRows f10W 2 4) (sliceRowsFrom f10W 4) (by norm_num) (by norm_num)
    (by norm_num) (by with_unfolding_all decide)).1

/-!  Orchestration-level claims: C2, C3, C9, C10. -/

/-- C3: pydantic accepts a `SlidingWindowConfig` whose `forecast_steps`
is empty (only `sequence_length` and `stride` are constrained), and a
run with that configuration fails with an `IndexError` at
`forecast_steps[0]` in `_persist_sequences` — after the input was read
and the three split CSVs were already written, not before any I/O. -/
theorem empty_forecast_steps_C3 :
    SlidingWindowConfig.valid ⟨2, [], 1, "m"⟩ = true ∧
    (runPipeline cfgC3empty inputsW).result = .error .indexError ∧
    Event.write "train.csv" ∈ (runPipeline cfgC3empty inputsW).events := by
  refine ⟨by decide, ?_, ?_⟩ <;> with_unfolding_all decide

/-- C9: with an empty glob match the loader raises the no-input-files
error instead of returning an empty frame, and the run performs no I/O
at all — in particular it writes nothing. -/
theorem load_raw_no_files_C9 (cfg : PreprocessorConfig) :
    loadRaw cfg [] = .error .noInputFiles ∧
    runPipeline cfg [] = ⟨[], .error .noInputFiles⟩ :=
  ⟨rfl, rfl⟩

/-- C10: the scaler feature subset is the configured `scaler_features`
silently intersected with the frame's columns, falling back to the
configured metrics when `scaler_features` is empty; a wholly misspelled
`scaler_features` list yields the empty subset rather than an error. -/
theorem determine_scaler_features_C10 (cfg : PreprocessorConfig)
    (f : Frame) :
    (∀ c, c ∈ determineScalerFeatures cfg f ↔
      c ∈ (if cfg.scaler_features.isEmpty then cfg.metrics
            else cfg.scaler_features) ∧ c ∈ colNames f) ∧
    (¬ cfg.scaler_features.isEmpty = true →
      (∀ c ∈ cfg.scaler_features, c ∉ colNames f) →
      determineScalerFeatures cfg f = []) := by
  constructor
  · intro c
    unfold determineScalerFeatures
    by_cases h : cfg.scaler_features.isEmpty <;>
      simp [h, List.mem_filter, and_comm]
  · intro h hmiss
    unfold determineScalerFeatures
    rw [if_neg h]
    rw [List.filter_eq_nil]
    intro c hc
    simpa using hmiss c hc

/-- Witness instantiating C10: the wholly misspelled list gives the
empty feature subset. -/
theorem determine_scaler_features_C10_witness :
    determineScalerFeatures cfgC10 fLagW = [] :=
  (determine_scaler_features_C10 cfgC10 fLagW).2 (by decide) (by decide)

end K8sPre
